import Mathlib

/-!
Verification of the AyzekReborn/Command-Parser command grammar dispatcher.

JavaScript strings are modelled as `List Char` (one entry per code unit) and
string positions as `Nat`.  `String.prototype.toLowerCase` is modelled
character-wise by `Char.toLower` (the repository's literals and tests are
ASCII).  Fallible code is modelled with `Option`.
-/

/-- JS `s.substring(a, b)` for `a ≤ b`: the slice of `s` from index `a`
(inclusive) to `b` (exclusive), clamped to the string bounds. -/
def jsSubstring (s : List Char) (a b : Nat) : List Char :=
  (s.take b).drop a

/-- JS `s.toLowerCase()`, modelled character-wise. -/
def jsToLower (s : List Char) : List Char :=
  s.map Char.toLower

/-- Modelled from the spec: `range.ts` is not among the provided sources.
A `StringRange` is a span of string positions (§3 "Parsed argument: pair of
(string range within original input, loaded value)"); brigadier-style
constructors `at`, `between`, `encompassing` are used by the sources. -/
structure StringRange where
  start : Nat
  stop : Nat
deriving DecidableEq, Repr

/-- Modelled from the spec: `StringRange.at(pos)` — the empty range at `pos`. -/
def StringRange.atPos (pos : Nat) : StringRange := ⟨pos, pos⟩

/-- Modelled from the spec: `StringRange.between(start, end)`. -/
def StringRange.between (a b : Nat) : StringRange := ⟨a, b⟩

/-- Modelled from the spec: `StringRange.encompassing(r1, r2)` — the smallest
range covering both. -/
def StringRange.encompassing (r1 r2 : StringRange) : StringRange :=
  ⟨min r1.start r2.start, max r1.stop r2.stop⟩

/-- Modelled from the spec: a range is empty when it covers no characters. -/
def StringRange.isEmpty (r : StringRange) : Bool :=
  r.start == r.stop

/-- Modelled from the spec (§3 "Reader"): `reader.ts` is not among the
provided sources.  "Cursor + immutable string"; operations `peek`, `skip`,
`canRead(n)`, `canReadAnything`, `clone`, explicit cursor assignment. -/
structure StringReader where
  str : List Char
  cursor : Nat
deriving DecidableEq, Repr

/-- Modelled from the spec: `canRead(n)` — at least `n` unread characters. -/
def StringReader.canRead (r : StringReader) (n : Nat) : Bool :=
  r.cursor + n ≤ r.str.length

/-- Modelled from the spec: `canReadAnything` — at least one unread character. -/
def StringReader.canReadAnything (r : StringReader) : Bool :=
  r.canRead 1

/-- Modelled from the spec: `peek` — the character at the cursor, if any. -/
def StringReader.peekc (r : StringReader) : Option Char :=
  r.str[r.cursor]?

/-- Modelled from the spec: `skip` — advance the cursor by one. -/
def StringReader.skip (r : StringReader) : StringReader :=
  { r with cursor := r.cursor + 1 }

/-!
## `executeResults` pre-execution guard (src/src/command.ts, lines 72-81)

`CommandDispatcher.executeResults(parse)` first checks
`parse.reader.canReadAnything`; when the parse left input unread it throws
before the execution loop below it is ever entered:
  - `parse.exceptions.size === 1` — rethrow the sole recorded exception;
  - otherwise `parse.context.range.isEmpty` — throw
    `new UnknownSomethingError(reader, 'argument')`;
  - otherwise — throw `new UnknownSomethingError(reader, 'command')`.
When the reader is exhausted the guard throws nothing (`none`) and execution
proceeds.  Errors are modelled by `DispatchThrown`; `recorded e` is a
rethrown entry of the exception map, `unknown thing` is
`UnknownSomethingError(reader, thing)`.
-/

/-- An error thrown by `executeResults` before execution starts. -/
inductive DispatchThrown (E : Type) where
  | recorded (e : E)
  | unknown (thing : String)
deriving DecidableEq, Repr

/-- The observables of a `ParseResults<S>` that the guard consults: the
reader at the stop point, the entries of the exception map (in insertion
order), and the context builder's overall range. -/
structure GuardParseResults (E : Type) where
  reader : StringReader
  exceptions : List E
  contextRange : StringRange
deriving DecidableEq, Repr

/-- The guard of `executeResults` (src/src/command.ts lines 73-81; the same
lines appear in the second dispatcher variant).  Returns the thrown error,
or `none` when execution may proceed. -/
def executeResultsGuard {E : Type} (parse : GuardParseResults E) :
    Option (DispatchThrown E) :=
  if parse.reader.canReadAnything then
    some (match parse.exceptions with
      | [e] => DispatchThrown.recorded e
      | _ =>
        if parse.contextRange.isEmpty then DispatchThrown.unknown "argument"
        else DispatchThrown.unknown "command")
  else
    none

/-- C1: for a parse result with unread input, the guard of `executeResults`
throws: the sole recorded exception if the exception map has exactly one
entry; otherwise, with the exception map empty and an empty context range
(no nodes matched), the code throws the unknown-ARGUMENT error, and with a
non-empty range (some nodes matched) it throws the unknown-COMMAND error —
the reverse of the claimed (and spec-stated) assignment.  Evaluated here at
two concrete failing inputs over input `"x"`. -/
theorem executeResults_unknown_labels_swapped :
    executeResultsGuard
        (⟨⟨['x'], 0⟩, ([] : List Nat), StringRange.atPos 0⟩ : GuardParseResults Nat)
      = some (DispatchThrown.unknown "argument")
    ∧ executeResultsGuard
        (⟨⟨['x'], 0⟩, ([] : List Nat), StringRange.between 0 1⟩ : GuardParseResults Nat)
      = some (DispatchThrown.unknown "command") := by
  constructor <;> rfl

/-!
## Requirements (src/src/requirement.ts)

`Requirement<S, T>` is either a normalized predicate
`(user: S) => RequirementFailure<T> | undefined` or an array of
requirements; `RequirementFailure` carries the optional `showInTree` flag
and the optional `reason` payload (absent fields are falsy, modelled by
`Bool`/`Option`).
-/

/-- `RequirementFailure<T>` (src/src/requirement.ts lines 7-18). -/
structure RequirementFailure (T : Type) where
  showInTree : Bool
  reason : Option T
deriving DecidableEq, Repr

/-- `Requirement<S, T>`: a normalized requirement function or an array of
requirements (src/src/requirement.ts lines 2-5). -/
inductive Requirement (S T : Type) where
  | single (f : S → Option (RequirementFailure T))
  | many (rs : List (Requirement S T))

mutual

/-- `normalizeRequirement` on a present requirement
(src/src/requirement.ts lines 53-60): an array becomes `requireAnd`, a
function is returned as is.  The `requireAnd` applied to the array is
inlined here as `requireAndList` (the source normalizes each element and
scans for the first failure; `requireAnd_eq_requireAndList` below proves
the map-then-scan form of the source equal to this fused form). -/
def normalizeRequirement {S T : Type} : Requirement S T → S → Option (RequirementFailure T)
  | .single f, user => f user
  | .many rs, user => requireAndList rs user

/-- The loop of `requireAnd` (src/src/requirement.ts lines 29-36): return
the first failure among the normalized requirements, else `undefined`. -/
def requireAndList {S T : Type} : List (Requirement S T) → S → Option (RequirementFailure T)
  | [], _ => none
  | r :: rest, user =>
    match normalizeRequirement r user with
    | some failure => some failure
    | none => requireAndList rest user

end

/-- Scan a list of normalized requirements for the first failure. -/
def firstFailure {S T : Type} :
    List (S → Option (RequirementFailure T)) → S → Option (RequirementFailure T)
  | [], _ => none
  | f :: fs, user =>
    match f user with
    | some failure => some failure
    | none => firstFailure fs user

/-- `requireAnd` (src/src/requirement.ts lines 27-37): normalize every
element, then return the first failure. -/
def requireAnd {S T : Type} (requirements : List (Requirement S T)) :
    S → Option (RequirementFailure T) :=
  fun user => firstFailure (requirements.map normalizeRequirement) user

/-- `normalizeRequirement` on an optional requirement
(src/src/requirement.ts lines 53-60): `undefined` becomes
`requireNothing`. -/
def normalizeOptRequirement {S T : Type} (requirement : Option (Requirement S T)) :
    S → Option (RequirementFailure T) :=
  match requirement with
  | none => fun _ => none
  | some r => normalizeRequirement r

/-- `requireOr` (src/src/requirement.ts lines 39-51): normalize every
element, evaluate them all, remember the first failure seen
(`if (failure && !anyFailed) anyFailed = failure`), and return it. -/
def requireOr {S T : Type} (requirements : List (Requirement S T)) :
    S → Option (RequirementFailure T) :=
  fun user =>
    (requirements.map normalizeRequirement).foldl
      (fun anyFailed req =>
        let failure := req user
        if failure.isSome && anyFailed.isNone then failure else anyFailed)
      none

theorem requireAnd_eq_requireAndList {S T : Type} (rs : List (Requirement S T)) (user : S) :
    requireAnd rs user = requireAndList rs user := by
  induction rs with
  | nil => rfl
  | cons r rest ih =>
    simp only [requireAnd, firstFailure, List.map, requireAndList] at *
    cases normalizeRequirement r user <;> simp [ih]

/-!
## `CommandNode.checkRequirement` (src/unnamed/part_006, lines 68-89)

The node data consulted by `checkRequirement`: the optional requirement
predicate, whether the node carries an executor (`command` is truthy), the
optional redirect target and the children.  `redirect` is a node value here
(the shared tree is unfolded), which covers every acyclic reach of the
recursion.
-/

/-- The attributes of a `CommandNode` that `checkRequirement` reads. -/
inductive CNode (S T : Type) where
  | mk (requirement : Option (S → Option (RequirementFailure T)))
       (command : Bool)
       (redirect : Option (CNode S T))
       (children : List (CNode S T))

def CNode.requirement {S T : Type} : CNode S T → Option (S → Option (RequirementFailure T))
  | .mk r _ _ _ => r

def CNode.command {S T : Type} : CNode S T → Bool
  | .mk _ c _ _ => c

def CNode.redirect {S T : Type} : CNode S T → Option (CNode S T)
  | .mk _ _ rd _ => rd

def CNode.children {S T : Type} : CNode S T → List (CNode S T)
  | .mk _ _ _ ch => ch

mutual

/-- `CommandNode.checkRequirement(source)` (src/unnamed/part_006 lines
68-89): return the own requirement's failure if it fails (the early
`return failure`, written here as `Option.orElse`); else return permitted
(`undefined`) if the node has an executor; if the redirect target is
permitted, return permitted; if any child is permitted, return permitted;
otherwise the function body ends and `undefined` is returned. -/
def checkRequirement {S T : Type} : CNode S T → S → Option (RequirementFailure T)
  | .mk requirement command redirect children, source =>
    Option.orElse
      (match requirement with
       | some req => req source
       | none => none)
      (fun _ =>
        if command then none
        else
          let redirectPermitted :=
            match redirect with
            | some target => (checkRequirement target source).isNone
            | none => false
          if redirectPermitted then none
          else if anyChildPermitted children source then none
          else none)

/-- The child loop of `checkRequirement`: `for (let child of this.children)
{ let failure = child.checkRequirement(source); if (!failure) return; }`. -/
def anyChildPermitted {S T : Type} : List (CNode S T) → S → Bool
  | [], _ => false
  | c :: rest, source =>
    if (checkRequirement c source).isNone then true
    else anyChildPermitted rest source

end

/-- The node's own requirement evaluated at `source` (the first step of
`checkRequirement`); `none` both when no requirement is set and when the
predicate passes. -/
def ownRequirementEval {S T : Type} (n : CNode S T) (source : S) :
    Option (RequirementFailure T) :=
  match n.requirement with
  | some req => req source
  | none => none

theorem checkRequirement_eq_own {S T : Type} (n : CNode S T) (source : S) :
    checkRequirement n source = ownRequirementEval n source := by
  cases n with
  | mk requirement command redirect children =>
    rw [checkRequirement.eq_def, ownRequirementEval]
    cases requirement with
    | none => simp only [CNode.requirement]; split <;> simp_all
    | some req =>
      simp only [CNode.requirement]
      cases req source with
      | none => split <;> simp_all
      | some failure => rfl

/-- A denied node: its own requirement fails with a visible reason. -/
def deniedNodeEx : CNode Nat Nat :=
  .mk (some fun _ => some ⟨true, some 7⟩) false none []

/-- A node whose own requirement passes (none is set), with no executor,
whose redirect target and sole child are both denied. -/
def blockedParentEx : CNode Nat Nat :=
  .mk none false (some deniedNodeEx) [deniedNodeEx]

/-- C2 counterexample: `blockedParentEx` has no executor, its redirect
target and its only child are denied (their checks return a failure), yet
`checkRequirement` returns permitted (`undefined`) rather than any of the
failures seen, refuting the claim's "otherwise" case at this input. -/
theorem checkRequirement_counterexample :
    checkRequirement blockedParentEx 0 = none
    ∧ checkRequirement deniedNodeEx 0 = some ⟨true, some 7⟩
    ∧ blockedParentEx.command = false
    ∧ blockedParentEx.redirect = some deniedNodeEx
    ∧ blockedParentEx.children = [deniedNodeEx] := by
  refine ⟨?_, ?_, rfl, rfl, rfl⟩
  · rw [blockedParentEx, checkRequirement.eq_def]
    simp [deniedNodeEx, checkRequirement.eq_def, anyChildPermitted.eq_def]
  · rw [deniedNodeEx, checkRequirement.eq_def]
    rfl

/-- C2 amended: when the node's own requirement passes, `checkRequirement`
returns permitted in every case — whether or not the node carries an
executor and whether or not the redirect target or any child is permitted;
a requirement failure of the redirect target or of a child is never
propagated, the only failure `checkRequirement` can return is the node's
own. -/
theorem checkRequirement_permitted_of_own_pass {S T : Type} (n : CNode S T) (source : S)
    (h : ownRequirementEval n source = none) :
    checkRequirement n source = none := by
  rw [checkRequirement_eq_own]; exact h

/-- C2 amended, witness: the blocked parent node's own requirement passes
and its check returns permitted. -/
theorem checkRequirement_permitted_of_own_pass_witness :
    ownRequirementEval blockedParentEx 0 = none
    ∧ checkRequirement blockedParentEx 0 = none :=
  ⟨rfl, checkRequirement_permitted_of_own_pass blockedParentEx 0 rfl⟩

/-!
## `ArgumentBuilder.requires` accumulation (src/src/builder.ts, lines 57-66)

The builder's `requirement` field starts `undefined`.  Each `requires(r)`
call pushes onto an existing array, turns a single requirement into a
two-element array, or stores the first requirement directly.  `build()`
passes the field through `normalizeRequirement`
(src/src/builder.ts lines 103 and 128).
-/

/-- One `requires(requirement)` call (src/src/builder.ts lines 57-66). -/
def requiresStep {S T : Type} (state : Option (Requirement S T)) (r : Requirement S T) :
    Option (Requirement S T) :=
  match state with
  | some (.many l) => some (.many (l ++ [r]))
  | some old => some (.many [old, r])
  | none => some r

/-- The builder's `requirement` field after calling `requires` once per
element of `rs`, in order, starting from `undefined`. -/
def accumulateRequires {S T : Type} (rs : List (Requirement S T)) :
    Option (Requirement S T) :=
  rs.foldl requiresStep none

theorem foldl_requiresStep_many {S T : Type} (l : List (Requirement S T))
    (rest : List (Requirement S T)) :
    rest.foldl requiresStep (some (.many l)) = some (.many (l ++ rest)) := by
  induction rest generalizing l with
  | nil => simp
  | cons r rest ih =>
    simp only [List.foldl_cons, requiresStep]
    rw [ih]
    simp

theorem accumulateRequires_two_or_more {S T : Type}
    (r1 r2 : Requirement S T) (rest : List (Requirement S T))
    (h1 : ∀ l, r1 ≠ .many l) :
    accumulateRequires (r1 :: r2 :: rest) = some (.many (r1 :: r2 :: rest)) := by
  rw [accumulateRequires]
  simp only [List.foldl_cons]
  have e1 : requiresStep none r1 = some r1 := rfl
  rw [e1]
  have e2 : requiresStep (some r1) r2 = some (.many [r1, r2]) := by
    cases r1 with
    | single f => rfl
    | many l => exact absurd rfl (h1 l)
  rw [e2, foldl_requiresStep_many]
  rfl

theorem requireAndList_singles {S T : Type}
    (fs : List (S → Option (RequirementFailure T))) (user : S) :
    requireAndList (fs.map Requirement.single) user
      = (fs.map (fun f => f user)).findSome? id := by
  induction fs with
  | nil => rfl
  | cons f fs ih =>
    simp only [List.map_cons, requireAndList, normalizeRequirement, List.findSome?]
    cases f user <;> simp [ih]

theorem findSome?_id_eq_none_iff {F : Type} (l : List (Option F)) :
    l.findSome? id = none ↔ ∀ x ∈ l, x = none := by
  induction l with
  | nil => simp
  | cons a l ih =>
    cases a <;> simp [List.findSome?, ih]

/-- C6: when `requires` is called `n ≥ 2` times with plain predicates
`fs = [f1, …, fn]`, the built node's requirement (the accumulated field run
through `normalizeRequirement`) returns, at every source, the failure of
the first predicate that fails in call order (`findSome?` over the list of
evaluations), and it permits the source exactly when every accumulated
predicate permits it. -/
theorem requires_accumulates_conjunction {S T : Type}
    (fs : List (S → Option (RequirementFailure T))) (user : S)
    (h : 1 < fs.length) :
    normalizeOptRequirement (accumulateRequires (fs.map Requirement.single)) user
        = (fs.map (fun f => f user)).findSome? id
    ∧ (normalizeOptRequirement (accumulateRequires (fs.map Requirement.single)) user = none
        ↔ ∀ f ∈ fs, f user = none) := by
  have hmain :
      normalizeOptRequirement (accumulateRequires (fs.map Requirement.single)) user
        = (fs.map (fun f => f user)).findSome? id := by
    match fs, h with
    | f1 :: f2 :: rest, _ =>
      rw [List.map_cons, List.map_cons,
        accumulateRequires_two_or_more _ _ _ (fun l hl => by cases hl)]
      show normalizeRequirement (.many (Requirement.single f1 :: Requirement.single f2 ::
        rest.map Requirement.single)) user = _
      rw [normalizeRequirement]
      have := requireAndList_singles (f1 :: f2 :: rest) user
      simpa using this
  refine ⟨hmain, ?_⟩
  rw [hmain, findSome?_id_eq_none_iff]
  simp

/-- C6 witness: two predicates over `Nat` sources; at source `0` the built
requirement returns the first predicate's failure and is accordingly not
permitted. -/
theorem requires_accumulates_conjunction_witness :
    (normalizeOptRequirement
        (accumulateRequires
          (([fun n => if n == 0 then some ⟨true, some 1⟩ else none,
             fun _ => some ⟨false, some 2⟩] :
              List (Nat → Option (RequirementFailure Nat))).map Requirement.single)) 0
      = ([fun n => if n == 0 then some ⟨true, some 1⟩ else none,
          fun _ => some ⟨false, some 2⟩].map (fun f => f 0)).findSome? id) :=
  (requires_accumulates_conjunction _ 0 (by decide)).1

theorem foldl_requireOr_keeps_first {S T : Type}
    (reqs : List (S → Option (RequirementFailure T))) (user : S)
    (a : RequirementFailure T) :
    reqs.foldl
      (fun anyFailed req =>
        let failure := req user
        if failure.isSome && anyFailed.isNone then failure else anyFailed)
      (some a) = some a := by
  induction reqs with
  | nil => rfl
  | cons f fs ih =>
    simp only [List.foldl_cons]
    simpa using ih

theorem requireAndList_eq_findSome {S T : Type}
    (rs : List (Requirement S T)) (user : S) :
    requireAndList rs user
      = (rs.map (fun r => normalizeRequirement r user)).findSome? id := by
  induction rs with
  | nil => rfl
  | cons r rest ih =>
    simp only [List.map_cons, List.findSome?, requireAndList]
    cases normalizeRequirement r user <;> simp [ih]

/-- C9: `requireOr` evaluates every element but behaves exactly as the
conjunction `requireAnd` does: its result at every source is the failure
of the first failing element in list order (`findSome?` over the
normalized evaluations), it equals `requireAnd` extensionally, and it
permits a source exactly when every element of the list permits it. -/
theorem requireOr_is_conjunction {S T : Type}
    (rs : List (Requirement S T)) (user : S) :
    requireOr rs user = (rs.map (fun r => normalizeRequirement r user)).findSome? id
    ∧ requireOr rs user = requireAnd rs user
    ∧ (requireOr rs user = none ↔ ∀ r ∈ rs, normalizeRequirement r user = none) := by
  have hmain : requireOr rs user
      = (rs.map (fun r => normalizeRequirement r user)).findSome? id := by
    induction rs with
    | nil => rfl
    | cons r rest ih =>
      rw [requireOr] at ih ⊢
      simp only [List.map_cons, List.foldl_cons, List.findSome?]
      cases h : normalizeRequirement r user with
      | none => simpa [h] using ih
      | some failure =>
        simp only [h, Option.isSome_some, Option.isNone_none, Bool.and_self, if_pos]
        exact foldl_requireOr_keeps_first _ _ _
  have hand : requireOr rs user = requireAnd rs user := by
    rw [hmain, requireAnd_eq_requireAndList, requireAndList_eq_findSome]
  refine ⟨hmain, hand, ?_⟩
  rw [hmain, findSome?_id_eq_none_iff]
  simp

/-!
## `CommandContext.getArguments` (src/src/command.ts, lines 321-326)

```
getArguments(): O {
    const result: any = {};
    for (let key in this.parsedArguments.keys())
        result[key] = this.parsedArguments.get(key);
    return result as O;
}
```

`for..in` enumerates an object's enumerable string-keyed properties.  The
expression `this.parsedArguments.keys()` is a Map Iterator object, which
has no own enumerable properties (its methods live on the prototype and
are not enumerated as keys of the iterator object), so the loop body runs
zero times for every map.  The identical method appears in the second
dispatcher variant (src/unnamed/part_005 lines 493-498).
-/

/-- A `ParsedArgument`: the string range within the original input plus the
loaded value (field `result`). -/
structure ParsedArgument (V : Type) where
  range : StringRange
  result : V
deriving DecidableEq, Repr

/-- The enumerable string keys that JS `for..in` visits on a Map keys
iterator object: there are none, for every map. -/
def mapIteratorForInKeys {V : Type} (_parsedArguments : List (String × V)) : List String :=
  []

/-- `CommandContext.getArguments()`: build a record from the keys that
`for..in` yields over `parsedArguments.keys()`, each bound to
`parsedArguments.get(key)`. -/
def getArguments {V : Type} (parsedArguments : List (String × ParsedArgument V)) :
    List (String × Option (ParsedArgument V)) :=
  (mapIteratorForInKeys parsedArguments).map
    (fun key => (key, parsedArguments.lookup key))

/-- `CommandContext.getArgumentIfExists(name)` (src/src/command.ts lines
328-333): `null` when the name is absent, else the parsed argument's
loaded `result`. -/
def getArgumentIfExists {V : Type} (parsedArguments : List (String × ParsedArgument V))
    (name : String) : Option V :=
  match parsedArguments.lookup name with
  | none => none
  | some argument => some argument.result

/-- C8: `getArguments()` returns a record with no keys for every context,
even when `parsedArguments` holds an entry for `name`; that entry's loaded
value is still reachable through `getArgumentIfExists`. -/
theorem getArguments_always_empty {V : Type}
    (parsedArguments : List (String × ParsedArgument V))
    (name : String) (argument : ParsedArgument V)
    (h : parsedArguments.lookup name = some argument) :
    getArguments parsedArguments = []
    ∧ getArgumentIfExists parsedArguments name = some argument.result := by
  refine ⟨rfl, ?_⟩
  rw [getArgumentIfExists, h]

/-- C8 witness: a one-entry argument map; `getArguments` is empty while
`getArgumentIfExists` still returns the stored value. -/
theorem getArguments_always_empty_witness :
    getArguments [("User", (⟨StringRange.between 0 4, 10⟩ : ParsedArgument Nat))] = []
    ∧ getArgumentIfExists [("User", (⟨StringRange.between 0 4, 10⟩ : ParsedArgument Nat))] "User"
      = some 10 :=
  getArguments_always_empty _ "User" ⟨StringRange.between 0 4, 10⟩ rfl

/-!
## `CommandContextBuilder.copy` (src/src/command.ts, lines 380-388)

```
copy(): CommandContextBuilder<S, O, ReturnValue> {
    const copy = new CommandContextBuilder(this.dispatcher, this.source, this.rootNode, this.range.start);
    copy.command = this.command;
    copy.args = new Map([...Array.from(copy.args), ...Array.from(this.args)]);
    copy.nodes.push(...this.nodes);
    copy.child = this.child;
    copy.range = this.range;
    return copy;
}
```

The constructor initializes `args`/`nodes` empty, `command`, `child` and
`modifier` unset, and `range = StringRange.at(start)`.  `copy` then assigns
every field except `modifier`, which stays unset.  Types that only travel
through the builder (dispatcher handle, root node, commands, modifiers,
argument values, parsed nodes, the nested child builder) are type
parameters here.
-/

/-- The mutable fields of `CommandContextBuilder` (`D` dispatcher handle,
`R` root node, `A` parsed-argument values, `N` parsed `(node, range)`
entries, `C` commands, `M` redirect modifiers, `Ch` the nested child
builder). -/
structure CtxBuilder (S D R A N C M Ch : Type) where
  dispatcher : D
  source : S
  rootNode : R
  args : List (String × A)
  nodes : List N
  command : Option C
  child : Option Ch
  range : StringRange
  modifier : Option M
deriving DecidableEq, Repr

/-- The `CommandContextBuilder` constructor (src/src/command.ts lines
347-356). -/
def CtxBuilder.new {S D R A N C M Ch : Type} (dispatcher : D) (source : S)
    (rootNode : R) (start : Nat) : CtxBuilder S D R A N C M Ch :=
  { dispatcher := dispatcher
    source := source
    rootNode := rootNode
    args := []
    nodes := []
    command := none
    child := none
    range := StringRange.atPos start
    modifier := none }

/-- `CommandContextBuilder.copy()` (src/src/command.ts lines 380-388):
construct a fresh builder at `this.range.start`, then assign `command`,
`args` (a Map rebuilt from the fresh builder's empty entries followed by
`this.args`), `nodes` (pushed onto the fresh empty list), `child` and
`range`.  `modifier` is never assigned. -/
def CtxBuilder.copy {S D R A N C M Ch : Type} (b : CtxBuilder S D R A N C M Ch) :
    CtxBuilder S D R A N C M Ch :=
  let c0 : CtxBuilder S D R A N C M Ch :=
    CtxBuilder.new b.dispatcher b.source b.rootNode b.range.start
  { c0 with
    command := b.command
    args := c0.args ++ b.args
    nodes := c0.nodes ++ b.nodes
    child := b.child
    range := b.range }

/-- C10: `copy()` preserves the builder's source, command, argument-map
entries, traversed node list, child and overall range, while the copy's
redirect modifier is always unset — even when the original's modifier is
set. -/
theorem ctxBuilder_copy_drops_modifier {S D R A N C M Ch : Type}
    (b : CtxBuilder S D R A N C M Ch) :
    b.copy.source = b.source
    ∧ b.copy.command = b.command
    ∧ b.copy.args = b.args
    ∧ b.copy.nodes = b.nodes
    ∧ b.copy.child = b.child
    ∧ b.copy.range = b.range
    ∧ b.copy.modifier = none :=
  ⟨rfl, rfl, rfl, rfl, rfl, rfl, rfl⟩

/-!
## `LiteralCommandNode._parse` / `isValidInput` (src/unnamed/part_006, lines 252-283)

`_parse` tries each entry of `literalNames` (index 0 the canonical name,
the rest aliases) at the reader's cursor: if enough input remains and the
lowercased slice of that length equals the stored name verbatim, the
cursor moves past it; the match stands only if the reader is then
exhausted or looking at the argument separator `' '`, in which case the
end position is returned — otherwise the cursor rewinds and the next name
is tried.  With no match, `-1` is returned.  `isValidInput(input)` runs
`_parse` on a fresh reader over `input` and tests `> -1`.
-/

/-- One iteration of the `_parse` loop: does `literal` match `input` at
position `start`, terminated by end-of-input or `' '`? -/
def literalMatchAt (input : List Char) (start : Nat) (literal : List Char) : Bool :=
  decide (start + literal.length ≤ input.length)
  && jsToLower (jsSubstring input start (start + literal.length)) == literal
  && (decide (input.length ≤ start + literal.length)
      || input[start + literal.length]? == some ' ')

/-- The loop of `LiteralCommandNode._parse`: first matching name returns
its end position, else `-1`. -/
def literalParseLoop (input : List Char) (start : Nat) : List (List Char) → Int
  | [] => -1
  | literal :: rest =>
    if literalMatchAt input start literal then ((start + literal.length : Nat) : Int)
    else literalParseLoop input start rest

/-- `LiteralCommandNode._parse(reader)`. -/
def literalParse (literalNames : List (List Char)) (reader : StringReader) : Int :=
  literalParseLoop reader.str reader.cursor literalNames

/-- `LiteralCommandNode.isValidInput(input)`:
`this._parse(new StringReader(input)) > -1`. -/
def literalIsValidInput (literalNames : List (List Char)) (input : List Char) : Bool :=
  literalParse literalNames ⟨input, 0⟩ > -1

/-- C5 counterexample: a literal node constructed with the canonical name
`"A"` does not accept its own name: `_parse` lowercases the input slice
and compares it with the stored name verbatim, so a stored name containing
an uppercase letter never matches. -/
theorem literalIsValidInput_counterexample :
    literalIsValidInput ["A".toList] "A".toList = false := by
  decide

theorem literalParseLoop_pos_of_match {input : List Char} {start : Nat}
    {names : List (List Char)} {l : List Char}
    (hmem : l ∈ names) (hmatch : literalMatchAt input start l = true) :
    literalParseLoop input start names > -1 := by
  induction names with
  | nil => cases hmem
  | cons hd rest ih =>
    rw [literalParseLoop]
    by_cases hhd : literalMatchAt input start hd
    · rw [if_pos hhd]
      exact_mod_cast Int.lt_of_lt_of_le (by decide) (Int.ofNat_le.mpr (Nat.zero_le _))
    · rw [if_neg hhd]
      rcases List.mem_cons.mp hmem with rfl | hmem'
      · exact absurd hmatch hhd
      · exact ih hmem'

/-- C5 amended: for every literal node whose stored names are their own
lowercase forms (as all names in the repository are), every stored name
`m` — canonical or alias — satisfies `isValidInput(m) = true` and
`isValidInput(m + " extra") = true`: the literal matches case-insensitively
exactly when it is followed by end-of-input or the argument separator.  A
stored name that is not its own lowercase form never matches itself
(counterexample above). -/
theorem literalIsValidInput_of_lowercase_names
    (literalNames : List (List Char)) (m : List Char)
    (hmem : m ∈ literalNames) (hlow : jsToLower m = m) :
    literalIsValidInput literalNames m = true
    ∧ literalIsValidInput literalNames (m ++ " extra".toList) = true := by
  have hself : literalMatchAt m 0 m = true := by
    have h1 : jsSubstring m 0 (0 + m.length) = m := by
      simp [jsSubstring]
    rw [literalMatchAt, h1, hlow]
    simp
  have hext : literalMatchAt (m ++ " extra".toList) 0 m = true := by
    have h1 : jsSubstring (m ++ " extra".toList) 0 (0 + m.length) = m := by
      rw [Nat.zero_add, jsSubstring, List.drop_zero, List.take_left]
    have h2 : (m ++ " extra".toList)[0 + m.length]? = some ' ' := by
      rw [Nat.zero_add, List.getElem?_append_right (Nat.le_refl _)]
      simp
    rw [literalMatchAt, h1, hlow, h2]
    simp
  constructor
  · have := literalParseLoop_pos_of_match hmem hself
    simpa [literalIsValidInput, literalParse] using this
  · have := literalParseLoop_pos_of_match hmem hext
    simpa [literalIsValidInput, literalParse] using this

/-- C5 amended, witness: the lowercase literal `"ab"` accepts itself and
itself followed by `" extra"`. -/
theorem literalIsValidInput_of_lowercase_names_witness :
    literalIsValidInput ["ab".toList] "ab".toList = true
    ∧ literalIsValidInput ["ab".toList] ("ab".toList ++ " extra".toList) = true :=
  literalIsValidInput_of_lowercase_names ["ab".toList] "ab".toList (by decide) (by decide)

/-!
## `parseNodes` potentials tie-break (src/src/command.ts, lines 223-242)

When `potentials` is non-empty, the code sorts it (only when more than one
entry survives) with the comparator below and returns `potentials[0]`.
`Array.prototype.sort` with a consistent comparator produces a sorted,
stable permutation (ECMAScript guarantees stability); it is modelled by
`List.insertionSort`, which is stable and sorts with respect to
"comparator ≤ 0".  A potential is a `ParseResults` record: its context
builder (opaque payload `C` here), the recorded exception map entries
(`List E`) and the reader.
-/

/-- A surviving potential: the `ParseResults<S>` fields read by the
comparator, with the context builder opaque. -/
structure PPot (C E : Type) where
  context : C
  exceptions : List E
  reader : StringReader
deriving DecidableEq, Repr

/-- The comparator body over the two observables of each side
(`reader.canReadAnything` and `exceptions.size !== 0`), returning the JS
comparator's number. -/
def potCmpB (aCanRead aHasErrors bCanRead bHasErrors : Bool) : Int :=
  if !aCanRead && bCanRead then -1
  else if aCanRead && !bCanRead then 1
  else if !aHasErrors && bHasErrors then -1
  else if aHasErrors && !bHasErrors then 1
  else 0

/-- The sort comparator of `parseNodes` (src/src/command.ts lines
225-239). -/
def jsPotentialCmp {C E : Type} (a b : PPot C E) : Int :=
  potCmpB a.reader.canReadAnything (a.exceptions.length != 0)
    b.reader.canReadAnything (b.exceptions.length != 0)

/-- "`a` sorts no later than `b`": the comparator returns `≤ 0`. -/
def potBefore {C E : Type} (a b : PPot C E) : Prop :=
  jsPotentialCmp a b ≤ 0

instance {C E : Type} : DecidableRel (potBefore : PPot C E → PPot C E → Prop) :=
  fun a b => inferInstanceAs (Decidable (jsPotentialCmp a b ≤ 0))

/-- The tail of `parseNodes` on a non-empty `potentials` list: sort when
more than one potential survived, then take the first element. -/
def potentialsSelect {C E : Type} (potentials : List (PPot C E)) : Option (PPot C E) :=
  if 1 < potentials.length then (List.insertionSort potBefore potentials).head?
  else potentials.head?

/-- Modelled from the spec's tie-break order: rank 0 for no leftover and no
errors, +1 for having errors, +2 for leftover input — the lexicographic
(leftover, has-errors) key. -/
def specKeyB (leftover hasErrors : Bool) : Nat :=
  (if leftover then 2 else 0) + (if hasErrors then 1 else 0)

/-- Modelled from the spec's tie-break order: the key of a potential. -/
def specPotKey {C E : Type} (p : PPot C E) : Nat :=
  specKeyB p.reader.canReadAnything (p.exceptions.length != 0)

/-- Modelled from the spec's tie-break: the first element under the total
order "smaller `specPotKey` first, ties by insertion order" — a later
element is preferred only when its key is strictly smaller. -/
def specFirstBest {C E : Type} : List (PPot C E) → Option (PPot C E)
  | [] => none
  | a :: l =>
    match specFirstBest l with
    | none => some a
    | some b => if specPotKey b < specPotKey a then some b else some a

theorem potCmpB_le_iff (x u y v : Bool) :
    potCmpB x u y v ≤ 0 ↔ specKeyB x u ≤ specKeyB y v := by
  cases x <;> cases u <;> cases y <;> cases v <;> decide

theorem potBefore_iff_key_le {C E : Type} (a b : PPot C E) :
    potBefore a b ↔ specPotKey a ≤ specPotKey b := by
  rw [potBefore, jsPotentialCmp, specPotKey, specPotKey]
  exact potCmpB_le_iff _ _ _ _

theorem insertionSort_head_eq_specFirstBest {C E : Type} (l : List (PPot C E)) :
    (List.insertionSort potBefore l).head? = specFirstBest l := by
  induction l with
  | nil => rfl
  | cons a l ih =>
    rw [List.insertionSort, specFirstBest]
    cases hs : List.insertionSort potBefore l with
    | nil =>
      rw [hs] at ih
      rw [← ih]
      rfl
    | cons y ys =>
      rw [hs] at ih
      rw [← ih]
      simp only [List.head?_cons]
      rw [List.orderedInsert]
      by_cases hb : potBefore a y
      · rw [if_pos hb, if_neg]
        · rfl
        · exact Nat.not_lt.mpr ((potBefore_iff_key_le a y).mp hb)
      · rw [if_neg hb, if_pos]
        · rfl
        · exact Nat.lt_of_not_le (fun hle => hb ((potBefore_iff_key_le a y).mpr hle))

/-- C4: when more than one potential survives, `parseNodes` returns the
first potential under the total order "no leftover input before leftover,
then empty exception map before non-empty, all remaining ties in insertion
order" (the sort is stable, so sibling insertion order is preserved). -/
theorem parseNodes_tiebreak (l : List (PPot Nat Nat)) (h : 1 < l.length) :
    potentialsSelect l = specFirstBest l := by
  rw [potentialsSelect, if_pos h, insertionSort_head_eq_specFirstBest]

/-- C4 witness: two tied potentials (both fully consumed, both error-free);
the selection keeps the first in insertion order. -/
theorem parseNodes_tiebreak_witness :
    1 < ([⟨1, [], ⟨"ab".toList, 2⟩⟩, ⟨2, [], ⟨"cd".toList, 2⟩⟩] : List (PPot Nat Nat)).length
    ∧ potentialsSelect [⟨1, [], ⟨"ab".toList, 2⟩⟩, (⟨2, [], ⟨"cd".toList, 2⟩⟩ : PPot Nat Nat)]
        = specFirstBest [⟨1, [], ⟨"ab".toList, 2⟩⟩, (⟨2, [], ⟨"cd".toList, 2⟩⟩ : PPot Nat Nat)]
    ∧ specFirstBest [⟨1, [], ⟨"ab".toList, 2⟩⟩, (⟨2, [], ⟨"cd".toList, 2⟩⟩ : PPot Nat Nat)]
        = some ⟨1, [], ⟨"ab".toList, 2⟩⟩ :=
  ⟨by decide, parseNodes_tiebreak _ (by decide), by decide⟩

/-!
## Suggestions (src/src/suggestions.ts)

`Suggestion` carries the string range it would replace, its text and an
optional tooltip (display metadata is not modelled).  `Suggestions.create`
computes the covering range over a non-empty list (the JS fold starts at
`Infinity`/`-Infinity`, modelled by folding from the first element),
expands every suggestion to it, collects them into a `Set` and sorts with
`undefined` as comparator: a `Set` of distinct objects and the default
all-equal string comparison leave the list unchanged (JS sort is stable),
so both steps are modelled as the identity.  `getCompletionSuggestions`
(src/src/command.ts lines 128-160) gives every child one
`SuggestionsBuilder` seeded with the same truncated input and the same
anchor `start`, and merges the per-child results with `Suggestions.merge`.
-/

/-- A `Suggestion` (src/src/suggestions.ts lines 18-48). -/
structure Suggestion where
  range : StringRange
  text : List Char
  tooltip : Option (List Char)
deriving DecidableEq, Repr

/-- `Suggestion.expand(command, range)` (src/src/suggestions.ts lines
37-47): widen the suggestion to `range`, pasting the missing slices of
`command` around the text. -/
def Suggestion.expand (s : Suggestion) (command : List Char) (range : StringRange) :
    Suggestion :=
  if range = s.range then s
  else
    { range := range
      text :=
        (if range.start < s.range.start then jsSubstring command range.start s.range.start
         else [])
        ++ s.text
        ++ (if s.range.stop < range.stop then jsSubstring command s.range.stop range.stop
            else [])
      tooltip := s.tooltip }

/-- A set of suggestions with their common covering range
(src/src/suggestions.ts lines 52-95). -/
structure Suggestions where
  range : StringRange
  suggestions : List Suggestion
deriving DecidableEq, Repr

/-- `EMPTY_SUGGESTIONS`. -/
def Suggestions.empty : Suggestions := ⟨StringRange.atPos 0, []⟩

/-- The JS `for`-fold `start = Math.min(s.range.start, start)` beginning at
`Infinity`, over a non-empty list (the empty case returns early). -/
def foldMinNat : List Nat → Nat
  | [] => 0
  | a :: t => t.foldl min a

/-- The JS fold `end = Math.max(s.range.end, end)` beginning at
`-Infinity`, over a non-empty list. -/
def foldMaxNat : List Nat → Nat
  | [] => 0
  | a :: t => t.foldl max a

/-- `Suggestions.create(command, suggestions)` (src/src/suggestions.ts
lines 77-94): empty input gives `EMPTY_SUGGESTIONS`; otherwise every
suggestion is expanded to the covering range (set insertion and the
default sort keep the insertion order, see the section comment). -/
def Suggestions.create (command : List Char) (suggestions : List Suggestion) :
    Suggestions :=
  if suggestions.length = 0 then Suggestions.empty
  else
    let range : StringRange :=
      ⟨foldMinNat (suggestions.map (fun s => s.range.start)),
       foldMaxNat (suggestions.map (fun s => s.range.stop))⟩
    ⟨range, suggestions.map (fun s => s.expand command range)⟩

/-- `Suggestions.merge(command, input)` (src/src/suggestions.ts lines
65-75): no input sets gives empty, a single set is returned as is,
otherwise all suggestions are collected (in order) and re-created. -/
def Suggestions.merge (command : List Char) (input : List Suggestions) : Suggestions :=
  match input with
  | [] => Suggestions.empty
  | [x] => x
  | _ => Suggestions.create command (List.flatten (input.map Suggestions.suggestions))

/-- `SuggestionsBuilder` (src/src/suggestions.ts lines 98-129): the full
input seeded into the builder, the anchor `start`, and the accumulated
result (display metadata is not modelled). -/
structure SuggestionsBuilder where
  input : List Char
  start : Nat
  result : List Suggestion
deriving DecidableEq, Repr

/-- `builder.remaining`: `input.substring(start)`. -/
def SuggestionsBuilder.remaining (b : SuggestionsBuilder) : List Char :=
  b.input.drop b.start

/-- `SuggestionsBuilder.suggest(text, tooltip)` (src/src/suggestions.ts
lines 109-115): adds nothing when `text` equals `remaining`; otherwise
pushes a suggestion over `[start, input.length)`. -/
def SuggestionsBuilder.suggest (b : SuggestionsBuilder) (text : List Char)
    (tooltip : Option (List Char)) : SuggestionsBuilder :=
  if text = b.remaining then b
  else
    { b with
      result := b.result ++ [⟨StringRange.between b.start b.input.length, text, tooltip⟩] }

/-- `SuggestionsBuilder.build()`: `Suggestions.create(input, result)`. -/
def SuggestionsBuilder.build (b : SuggestionsBuilder) : Suggestions :=
  Suggestions.create b.input b.result

/-- A per-child suggestion computation as the stock node implementations
perform it (literal nodes and the stock argument types): a sequence of
`suggest` calls on the builder `getCompletionSuggestions` seeds with the
truncated input `I` and the shared anchor `st`, followed by `build()`. -/
def buildFromCalls (I : List Char) (st : Nat)
    (calls : List (List Char × Option (List Char))) : Suggestions :=
  SuggestionsBuilder.build
    (calls.foldl (fun b c => SuggestionsBuilder.suggest b c.1 c.2)
      (⟨I, st, []⟩ : SuggestionsBuilder))

theorem foldSuggest_invariant {I : List Char} {st : Nat}
    (calls : List (List Char × Option (List Char))) (b : SuggestionsBuilder)
    (hin : b.input = I) (hst : b.start = st) :
    (calls.foldl (fun b c => SuggestionsBuilder.suggest b c.1 c.2) b).input = I
    ∧ (calls.foldl (fun b c => SuggestionsBuilder.suggest b c.1 c.2) b).start = st
    ∧ ∀ s ∈ (calls.foldl (fun b c => SuggestionsBuilder.suggest b c.1 c.2) b).result,
        s ∈ b.result
        ∨ (s.text ≠ I.drop st ∧ s.range = StringRange.between st I.length) := by
  induction calls generalizing b with
  | nil => exact ⟨hin, hst, fun s hs => Or.inl hs⟩
  | cons c rest ih =>
    simp only [List.foldl_cons]
    have hb1in : (SuggestionsBuilder.suggest b c.1 c.2).input = b.input := by
      rw [SuggestionsBuilder.suggest]; split <;> rfl
    have hb1st : (SuggestionsBuilder.suggest b c.1 c.2).start = b.start := by
      rw [SuggestionsBuilder.suggest]; split <;> rfl
    obtain ⟨h1, h2, h3⟩ :=
      ih (SuggestionsBuilder.suggest b c.1 c.2) (hb1in.trans hin) (hb1st.trans hst)
    refine ⟨h1, h2, fun s hs => ?_⟩
    rcases h3 s hs with hmem | hnew
    · rw [SuggestionsBuilder.suggest] at hmem
      split at hmem
      · exact Or.inl hmem
      · rcases List.mem_append.mp hmem with hold | hone
        · exact Or.inl hold
        · refine Or.inr ?_
          rcases List.mem_singleton.mp hone with rfl
          refine ⟨?_, by rw [hin, hst]⟩
          rename_i hne
          rw [← hin, ← hst]
          simpa [SuggestionsBuilder.remaining] using hne
    · exact Or.inr hnew

theorem foldlMin_const (x : Nat) (t : List Nat) (h : ∀ y ∈ t, y = x) :
    t.foldl min x = x := by
  induction t with
  | nil => rfl
  | cons a t ih =>
    rw [List.foldl_cons, h a (List.mem_cons_self a t), min_self]
    exact ih (fun y hy => h y (List.mem_cons_of_mem a hy))

theorem foldlMax_const (x : Nat) (t : List Nat) (h : ∀ y ∈ t, y = x) :
    t.foldl max x = x := by
  induction t with
  | nil => rfl
  | cons a t ih =>
    rw [List.foldl_cons, h a (List.mem_cons_self a t), max_self]
    exact ih (fun y hy => h y (List.mem_cons_of_mem a hy))

theorem create_const_range (command : List Char) (l : List Suggestion) (r : StringRange)
    (hne : l ≠ []) (hr : ∀ s ∈ l, s.range = r) :
    Suggestions.create command l = ⟨r, l⟩ := by
  match l, hne with
  | s0 :: rest, _ =>
    rw [Suggestions.create, if_neg (by simp)]
    have hmin : foldMinNat ((s0 :: rest).map (fun s => s.range.start)) = r.start := by
      rw [List.map_cons, foldMinNat, hr s0 (List.mem_cons_self _ _)]
      exact foldlMin_const _ _ (fun y hy => by
        rcases List.mem_map.mp hy with ⟨s, hs, rfl⟩
        rw [hr s (List.mem_cons_of_mem _ hs)])
    have hmax : foldMaxNat ((s0 :: rest).map (fun s => s.range.stop)) = r.stop := by
      rw [List.map_cons, foldMaxNat, hr s0 (List.mem_cons_self _ _)]
      exact foldlMax_const _ _ (fun y hy => by
        rcases List.mem_map.mp hy with ⟨s, hs, rfl⟩
        rw [hr s (List.mem_cons_of_mem _ hs)])
    have hrange : (⟨foldMinNat ((s0 :: rest).map (fun s => s.range.start)),
        foldMaxNat ((s0 :: rest).map (fun s => s.range.stop))⟩ : StringRange) = r := by
      rw [hmin, hmax]
    rw [hrange]
    show Suggestions.mk r ((s0 :: rest).map (fun s => s.expand command r))
      = Suggestions.mk r (s0 :: rest)
    congr 1
    have : ∀ s ∈ s0 :: rest, s.expand command r = s := fun s hs => by
      rw [Suggestion.expand, if_pos (hr s hs).symm]
    rw [List.map_congr_left this]
    exact List.map_id _

theorem mem_buildFromCalls {I : List Char} {st : Nat}
    {calls : List (List Char × Option (List Char))} {s : Suggestion}
    (hs : s ∈ (buildFromCalls I st calls).suggestions) :
    s.text ≠ I.drop st ∧ s.range = StringRange.between st I.length := by
  obtain ⟨h1, h2, h3⟩ :=
    foldSuggest_invariant calls (⟨I, st, []⟩ : SuggestionsBuilder) rfl rfl
  set b' := calls.foldl (fun b c => SuggestionsBuilder.suggest b c.1 c.2)
    (⟨I, st, []⟩ : SuggestionsBuilder) with hb'
  rw [buildFromCalls, ← hb', SuggestionsBuilder.build, h1] at hs
  cases hres : b'.result with
  | nil => rw [hres] at hs; simp [Suggestions.create, Suggestions.empty] at hs
  | cons s0 rest =>
    have hprop : ∀ x ∈ b'.result,
        x.text ≠ I.drop st ∧ x.range = StringRange.between st I.length := by
      intro x hx
      rcases h3 x hx with hfalse | hok
      · simp at hfalse
      · exact hok
    have hconst : ∀ x ∈ b'.result, x.range = StringRange.between st I.length :=
      fun x hx => (hprop x hx).2
    rw [hres] at hs hconst hprop
    rw [create_const_range I _ _ (by simp) hconst] at hs
    exact hprop s hs

/-- C7: `suggest(text)` adds nothing when `text` equals the builder's
`remaining` (the slice of the input from the builder's anchor), and in
consequence the merged suggestion set assembled the way
`getCompletionSuggestions` assembles it — one builder per child, all
seeded with the same truncated input and the same anchor — never contains
a completion whose text equals the remainder the user already typed at the
cursor. -/
theorem suggest_never_echoes_remaining :
    (∀ (b : SuggestionsBuilder) (tooltip : Option (List Char)),
      b.suggest b.remaining tooltip = b)
    ∧ ∀ (I : List Char) (st : Nat)
        (callLists : List (List (List Char × Option (List Char)))) (s : Suggestion),
        s ∈ (Suggestions.merge I (callLists.map (buildFromCalls I st))).suggestions →
        s.text ≠ I.drop st := by
  constructor
  · intro b tooltip
    rw [SuggestionsBuilder.suggest, if_pos rfl]
  · intro I st callLists s hs
    match callLists with
    | [] => simp [Suggestions.merge, Suggestions.empty] at hs
    | [c] =>
      rw [List.map_cons, List.map_nil] at hs
      exact (mem_buildFromCalls hs).1
    | c1 :: c2 :: rest =>
      rw [List.map_cons, List.map_cons] at hs
      rw [show Suggestions.merge I (buildFromCalls I st c1 :: buildFromCalls I st c2 ::
            (rest.map (buildFromCalls I st)))
          = Suggestions.create I (List.flatten ((buildFromCalls I st c1 ::
              buildFromCalls I st c2 :: (rest.map (buildFromCalls I st))).map
                Suggestions.suggestions)) from rfl] at hs
      set joined := List.flatten ((buildFromCalls I st c1 :: buildFromCalls I st c2 ::
        (rest.map (buildFromCalls I st))).map Suggestions.suggestions) with hj
      have hmem_prop : ∀ x ∈ joined,
          x.text ≠ I.drop st ∧ x.range = StringRange.between st I.length := by
        intro x hx
        rw [hj] at hx
        rcases List.mem_flatten.mp hx with ⟨sub, hsub, hxsub⟩
        rcases List.mem_map.mp hsub with ⟨sugg, hsugg, rfl⟩
        have : ∃ calls, sugg = buildFromCalls I st calls := by
          rcases List.mem_cons.mp hsugg with rfl | hsugg2
          · exact ⟨c1, rfl⟩
          rcases List.mem_cons.mp hsugg2 with rfl | hsugg3
          · exact ⟨c2, rfl⟩
          rcases List.mem_map.mp hsugg3 with ⟨calls, _, rfl⟩
          exact ⟨calls, rfl⟩
        rcases this with ⟨calls, rfl⟩
        exact mem_buildFromCalls hxsub
      cases hjoined : joined with
      | nil => rw [hjoined] at hs; simp [Suggestions.create, Suggestions.empty] at hs
      | cons j0 jrest =>
        rw [hjoined] at hs hmem_prop
        rw [create_const_range I _ _ (by simp) (fun x hx => (hmem_prop x hx).2)] at hs
        exact (hmem_prop s hs).1

/-- C7 witness: input `"ab"` with anchor `1` (remaining `"b"`); one child
suggests `"x"`; the merged set contains that suggestion and its text
indeed differs from the typed remainder. -/
theorem suggest_never_echoes_remaining_witness :
    (⟨StringRange.between 1 2, "x".toList, none⟩ : Suggestion)
        ∈ (Suggestions.merge "ab".toList
            ([[("x".toList, none)]].map (buildFromCalls "ab".toList 1))).suggestions
    ∧ (⟨StringRange.between 1 2, "x".toList, none⟩ : Suggestion).text ≠ "ab".toList.drop 1 :=
  ⟨by decide,
    suggest_never_echoes_remaining.2 "ab".toList 1 [[("x".toList, none)]] _ (by decide)⟩

/-!
## The node tree: `addChild` / `removeChild` (src/unnamed/part_006, lines 90-117)

A node's structure as `register`/`unregister` see it: its kind (literal or
argument child — the root is the node the operations run on and is never
itself a child), its name (`sortedKey` equals the name for both kinds),
whether it carries an executor, and its ordered `childrenMap` values.  The
`literals`/`arguments` sub-maps hold the same nodes partitioned by kind in
insertion order and are kept consistent by `addChild`/`removeChild`; they
are derived views of `childrenMap`'s content and are not duplicated here.

`compareTo` (lines 168-174) compares same-kind nodes by
`sortedKey.localeCompare` and puts literals before arguments otherwise.
`localeCompare` is modelled as code-unit lexicographic comparison (spec
§9: ASCII examples admit byte-order comparison).  `addChild` re-sorts the
children with `Array.from(entries).sort(...)` after every insertion;
`sort` with this comparator is modelled by `List.insertionSort` over
"compareTo ≤ 0" (children have pairwise distinct names, so the comparator
never ties and the sorted order is unique).
-/

/-- The kind, name, executor flag and ordered children of a command node. -/
inductive TNode where
  | mk (isLiteral : Bool) (name : List Char) (command : Bool) (children : List TNode)

def TNode.isLiteral : TNode → Bool
  | .mk il _ _ _ => il

def TNode.name : TNode → List Char
  | .mk _ nm _ _ => nm

def TNode.command : TNode → Bool
  | .mk _ _ cmd _ => cmd

def TNode.children : TNode → List TNode
  | .mk _ _ _ ch => ch

def TNode.withChildren : TNode → List TNode → TNode
  | .mk il nm cmd _, ch => .mk il nm cmd ch

def TNode.withCommand : TNode → Bool → TNode
  | .mk il nm _ ch, cmd => .mk il nm cmd ch

/-- Code-unit comparison of two characters (the base of the
`localeCompare` model). -/
def charCmp (c d : Char) : Ordering :=
  if c = d then .eq else if c < d then .lt else .gt

/-- `localeCompare`, modelled as lexicographic code-unit comparison. -/
def lexCmp : List Char → List Char → Ordering
  | [], [] => .eq
  | [], _ :: _ => .lt
  | _ :: _, [] => .gt
  | a :: as, b :: bs =>
    match charCmp a b with
    | .eq => lexCmp as bs
    | o => o

/-- `CommandNode.compareTo(other)` (src/unnamed/part_006 lines 168-174):
same kind compares `sortedKey` (the name, for both kinds); across kinds
literals sort first. -/
def cmpNode (a b : TNode) : Ordering :=
  if a.isLiteral = b.isLiteral then lexCmp a.name b.name
  else if b.isLiteral then .gt else .lt

/-- "`a` sorts no later than `b`": the comparator returns `≤ 0`. -/
def nodeLe (a b : TNode) : Prop := cmpNode a b ≠ .gt

instance : DecidableRel nodeLe :=
  fun a b => inferInstanceAs (Decidable ¬cmpNode a b = .gt)

mutual

/-- `CommandNode.addChild(node)` (src/unnamed/part_006 lines 98-117).  If
a child with the node's name exists, merge into it in place: adopt the
incoming executor if present, then add each grandchild; otherwise insert
the node.  Either way the children are re-sorted by `compareTo`. -/
def addChild (parent node : TNode) : TNode :=
  if (parent.children.find? (fun c => c.name == node.name)).isSome then
    parent.withChildren
      (List.insertionSort nodeLe
        (parent.children.map
          (fun c => if c.name == node.name then mergeInto c node else c)))
  else
    parent.withChildren
      (List.insertionSort nodeLe (parent.children ++ [node]))
termination_by (sizeOf node, 2)

/-- The merge arm of `addChild`: `if (node.command) child.command =
node.command; for (let grandchild of node.children)
child.addChild(grandchild)`. -/
def mergeInto : TNode → TNode → TNode
  | child, .mk _ _ cmd ch => addChildren (child.withCommand (child.command || cmd)) ch
termination_by _ node => (sizeOf node, 1)

/-- Fold `addChild` over a list of grandchildren. -/
def addChildren : TNode → List TNode → TNode
  | parent, [] => parent
  | parent, n :: rest => addChildren (addChild parent n) rest
termination_by _ ns => (sizeOf ns, 0)

end

/-- `CommandNode.removeChild(node)` (src/unnamed/part_006 lines 90-97):
delete the entry with the node's name. -/
def removeChild (parent node : TNode) : TNode :=
  parent.withChildren (parent.children.eraseP (fun c => c.name == node.name))

/-- `CommandDispatcher.register(builder)` adds the built node to the root
and returns the built node; `unregister` removes the returned node from
the root (src/src/command.ts lines 57-70).  Their composition on the
root. -/
def registerUnregister (root node : TNode) : TNode :=
  removeChild (addChild root node) node


theorem charCmp_eq_iff (c d : Char) : charCmp c d = .eq ↔ c = d := by
  rw [charCmp]
  split_ifs with h1 h2 <;> simp_all

theorem charCmp_lt_iff (c d : Char) : charCmp c d = .lt ↔ c < d := by
  rw [charCmp]
  split_ifs with h1 h2
  · subst h1; simp
  · simp [h2]
  · simp [h2]

theorem charCmp_gt_iff (c d : Char) : charCmp c d = .gt ↔ d < c := by
  rw [charCmp]
  split_ifs with h1 h2
  · subst h1; simp
  · refine iff_of_false (by decide) (fun h => absurd (h2.trans h) (lt_irrefl c))
  · refine iff_of_true rfl ?_
    rcases lt_trichotomy c d with h | h | h
    · exact absurd h h2
    · exact absurd h h1
    · exact h

theorem lexCmp_cons_of_lt {x y : Char} (xs ys : List Char) (h : charCmp x y = .lt) :
    lexCmp (x :: xs) (y :: ys) = .lt := by
  rw [lexCmp, h]

theorem lexCmp_cons_of_gt {x y : Char} (xs ys : List Char) (h : charCmp x y = .gt) :
    lexCmp (x :: xs) (y :: ys) = .gt := by
  rw [lexCmp, h]

theorem lexCmp_cons_of_eq {x y : Char} (xs ys : List Char) (h : charCmp x y = .eq) :
    lexCmp (x :: xs) (y :: ys) = lexCmp xs ys := by
  rw [lexCmp, h]

theorem lexCmp_eq_iff (a b : List Char) : lexCmp a b = .eq ↔ a = b := by
  induction a generalizing b with
  | nil => cases b <;> simp [lexCmp]
  | cons x xs ih =>
    cases b with
    | nil => simp [lexCmp]
    | cons y ys =>
      cases hc : charCmp x y with
      | eq =>
        have hxy := (charCmp_eq_iff x y).mp hc
        subst hxy
        rw [lexCmp_cons_of_eq _ _ hc]
        simp [ih]
      | lt =>
        rw [lexCmp_cons_of_lt _ _ hc]
        refine iff_of_false (by decide) (fun h => ?_)
        injection h with h1 _
        exact absurd h1 (ne_of_lt ((charCmp_lt_iff x y).mp hc))
      | gt =>
        rw [lexCmp_cons_of_gt _ _ hc]
        refine iff_of_false (by decide) (fun h => ?_)
        injection h with h1 _
        exact absurd h1.symm (ne_of_lt ((charCmp_gt_iff x y).mp hc))

theorem lexCmp_gt_iff (a b : List Char) : lexCmp a b = .gt ↔ lexCmp b a = .lt := by
  induction a generalizing b with
  | nil => cases b <;> simp [lexCmp]
  | cons x xs ih =>
    cases b with
    | nil => simp [lexCmp]
    | cons y ys =>
      cases hc : charCmp x y with
      | eq =>
        have hyx : charCmp y x = .eq :=
          (charCmp_eq_iff y x).mpr ((charCmp_eq_iff x y).mp hc).symm
        rw [lexCmp_cons_of_eq _ _ hc, lexCmp_cons_of_eq _ _ hyx]
        exact ih ys
      | lt =>
        have hyx : charCmp y x = .gt := (charCmp_gt_iff y x).mpr ((charCmp_lt_iff x y).mp hc)
        rw [lexCmp_cons_of_lt _ _ hc, lexCmp_cons_of_gt _ _ hyx]
        decide
      | gt =>
        have hyx : charCmp y x = .lt := (charCmp_lt_iff y x).mpr ((charCmp_gt_iff x y).mp hc)
        rw [lexCmp_cons_of_gt _ _ hc, lexCmp_cons_of_lt _ _ hyx]
        decide

theorem lexCmp_lt_trans {a b c : List Char}
    (h1 : lexCmp a b = .lt) (h2 : lexCmp b c = .lt) : lexCmp a c = .lt := by
  induction a generalizing b c with
  | nil =>
    cases b with
    | nil => exact absurd h1 (by simp [lexCmp])
    | cons y ys =>
      cases c with
      | nil => exact absurd h2 (by simp [lexCmp])
      | cons z zs => simp [lexCmp]
  | cons x xs ih =>
    cases b with
    | nil => exact absurd h1 (by simp [lexCmp])
    | cons y ys =>
      cases c with
      | nil => exact absurd h2 (by simp [lexCmp])
      | cons z zs =>
        cases hxy : charCmp x y with
        | gt => rw [lexCmp_cons_of_gt _ _ hxy] at h1; exact absurd h1 (by decide)
        | lt =>
          cases hyz : charCmp y z with
          | gt => rw [lexCmp_cons_of_gt _ _ hyz] at h2; exact absurd h2 (by decide)
          | eq =>
            have hyz' := (charCmp_eq_iff y z).mp hyz
            subst hyz'
            exact lexCmp_cons_of_lt _ _ hxy
          | lt =>
            exact lexCmp_cons_of_lt _ _ ((charCmp_lt_iff x z).mpr
              (lt_trans ((charCmp_lt_iff x y).mp hxy) ((charCmp_lt_iff y z).mp hyz)))
        | eq =>
          have hxy' := (charCmp_eq_iff x y).mp hxy
          subst hxy'
          rw [lexCmp_cons_of_eq _ _ hxy] at h1
          cases hyz : charCmp x z with
          | gt => rw [lexCmp_cons_of_gt _ _ hyz] at h2; exact absurd h2 (by decide)
          | lt => exact lexCmp_cons_of_lt _ _ hyz
          | eq =>
            rw [lexCmp_cons_of_eq _ _ hyz] at h2
            rw [lexCmp_cons_of_eq _ _ hyz]
            exact ih h1 h2

theorem ord_eq_lt_of_ne {o : Ordering} (hg : o ≠ .gt) (he : o ≠ .eq) : o = .lt := by
  cases o
  · rfl
  · exact absurd rfl he
  · exact absurd rfl hg

theorem cmpNode_eq_imp_name {a b : TNode} (h : cmpNode a b = .eq) : a.name = b.name := by
  rw [cmpNode] at h
  by_cases hk : a.isLiteral = b.isLiteral
  · rw [if_pos hk] at h
    exact (lexCmp_eq_iff _ _).mp h
  · rw [if_neg hk] at h
    by_cases hb : b.isLiteral
    · rw [if_pos hb] at h
      exact absurd h (by decide)
    · rw [if_neg hb] at h
      exact absurd h (by decide)

theorem cmpNode_gt_iff (a b : TNode) : cmpNode a b = .gt ↔ cmpNode b a = .lt := by
  cases hla : a.isLiteral <;> cases hlb : b.isLiteral <;>
    simp [cmpNode, hla, hlb, lexCmp_gt_iff]

theorem cmpNode_lt_trans {a b c : TNode} (h1 : cmpNode a b = .lt) (h2 : cmpNode b c = .lt) :
    cmpNode a c = .lt := by
  cases hla : a.isLiteral <;> cases hlb : b.isLiteral <;> cases hlc : c.isLiteral <;>
    simp_all [cmpNode] <;> exact lexCmp_lt_trans h1 h2

theorem orderedInsert_cons_neg {a b : TNode} (l : List TNode) (h : ¬ nodeLe a b) :
    List.orderedInsert nodeLe a (b :: l) = b :: List.orderedInsert nodeLe a l := by
  rw [List.orderedInsert, if_neg h]

theorem insertionSort_append_single (l : List TNode) (n : TNode)
    (hsorted : l.Pairwise (fun a b => cmpNode a b = .lt))
    (hfresh : ∀ x ∈ l, x.name ≠ n.name) :
    List.insertionSort nodeLe (l ++ [n]) = List.orderedInsert nodeLe n l := by
  induction l with
  | nil => rfl
  | cons a l' ih =>
    have ha : ∀ x ∈ l', cmpNode a x = .lt :=
      fun x hx => (List.pairwise_cons.mp hsorted).1 x hx
    have hl' := (List.pairwise_cons.mp hsorted).2
    have hfa : a.name ≠ n.name := hfresh a (List.mem_cons_self _ _)
    have hfl' : ∀ x ∈ l', x.name ≠ n.name :=
      fun x hx => hfresh x (List.mem_cons_of_mem _ hx)
    rw [List.cons_append, List.insertionSort, ih hl' hfl']
    have hOIa_l' : List.orderedInsert nodeLe a l' = a :: l' := by
      cases l' with
      | nil => rfl
      | cons x t =>
        refine List.orderedInsert_of_le nodeLe _ ?_
        have : cmpNode a x = .lt := ha x (List.mem_cons_self _ _)
        simp [nodeLe, this]
    by_cases hna : nodeLe n a
    · have hlt : cmpNode n a = .lt :=
        ord_eq_lt_of_ne hna (fun he => hfa ((cmpNode_eq_imp_name he)).symm)
      have hgan : cmpNode a n = .gt := (cmpNode_gt_iff a n).mpr hlt
      have h1 : List.orderedInsert nodeLe n l' = n :: l' := by
        cases l' with
        | nil => rfl
        | cons x t =>
          refine List.orderedInsert_of_le nodeLe _ ?_
          have hax : cmpNode a x = .lt := ha x (List.mem_cons_self _ _)
          have : cmpNode n x = .lt := cmpNode_lt_trans hlt hax
          simp [nodeLe, this]
      rw [h1, List.orderedInsert_of_le nodeLe _ hna,
        orderedInsert_cons_neg _ (fun hle => hle hgan), hOIa_l']
    · have hgna : cmpNode n a = .gt := not_not.mp hna
      have hlt_an : cmpNode a n = .lt := (cmpNode_gt_iff n a).mp hgna
      have hle_an : nodeLe a n := by simp [nodeLe, hlt_an]
      rw [orderedInsert_cons_neg _ hna]
      cases l' with
      | nil =>
        show List.orderedInsert nodeLe a [n] = a :: List.orderedInsert nodeLe n []
        rw [List.orderedInsert_of_le nodeLe _ hle_an]
        rfl
      | cons x t =>
        by_cases hnx : nodeLe n x
        · rw [List.orderedInsert_of_le nodeLe _ hnx, List.orderedInsert_of_le nodeLe _ hle_an]
        · have hax : cmpNode a x = .lt := ha x (List.mem_cons_self _ _)
          have hle_ax : nodeLe a x := by simp [nodeLe, hax]
          rw [orderedInsert_cons_neg _ hnx, List.orderedInsert_of_le nodeLe _ hle_ax]

theorem eraseP_orderedInsert (l : List TNode) (n : TNode)
    (hfresh : ∀ x ∈ l, x.name ≠ n.name) :
    (List.orderedInsert nodeLe n l).eraseP (fun c => c.name == n.name) = l := by
  induction l with
  | nil =>
    show ([n].eraseP (fun c => c.name == n.name)) = []
    rw [List.eraseP_cons_of_pos (by simp)]
  | cons a t ih =>
    have hfa : a.name ≠ n.name := hfresh a (List.mem_cons_self _ _)
    have hft : ∀ x ∈ t, x.name ≠ n.name :=
      fun x hx => hfresh x (List.mem_cons_of_mem _ hx)
    by_cases hna : nodeLe n a
    · rw [List.orderedInsert_of_le nodeLe _ hna, List.eraseP_cons_of_pos (by simp)]
    · rw [orderedInsert_cons_neg _ hna,
        List.eraseP_cons_of_neg (by simp [hfa]), ih hft]

theorem TNode.children_withChildren (p : TNode) (ch : List TNode) :
    (p.withChildren ch).children = ch := by
  cases p
  rfl

theorem TNode.name_withChildren (p : TNode) (ch : List TNode) :
    (p.withChildren ch).name = p.name := by
  cases p
  rfl

theorem TNode.name_withCommand (p : TNode) (c : Bool) :
    (p.withCommand c).name = p.name := by
  cases p
  rfl

theorem TNode.withChildren_withChildren (p : TNode) (ch ch2 : List TNode) :
    ((p.withChildren ch).withChildren ch2) = p.withChildren ch2 := by
  cases p
  rfl

theorem TNode.withChildren_children (p : TNode) : p.withChildren p.children = p := by
  cases p
  rfl

theorem addChild_name (p n : TNode) : (addChild p n).name = p.name := by
  rw [addChild.eq_def]
  by_cases h : (List.find? (fun c => c.name == n.name) p.children).isSome = true
  · rw [if_pos h, TNode.name_withChildren]
  · rw [if_neg h, TNode.name_withChildren]

theorem addChildren_name (ns : List TNode) (p : TNode) :
    (addChildren p ns).name = p.name := by
  induction ns generalizing p with
  | nil => rw [addChildren]
  | cons n rest ih =>
    rw [addChildren]
    rw [ih, addChild_name]

theorem mergeInto_name (c n : TNode) : (mergeInto c n).name = c.name := by
  cases n
  rw [mergeInto, addChildren_name, TNode.name_withCommand]

/-- C3 amended: `register(builder)` followed by `unregister` of the node
`register` returned restores the root's tree exactly when no child of the
built node's name already existed (the root's children being sorted by
`compareTo`, as `addChild` always leaves them).  In the merge case the
property fails: `unregister` deletes the whole merged child
(counterexample below). -/
theorem register_unregister_restores (root node : TNode)
    (hsorted : root.children.Pairwise (fun a b => cmpNode a b = .lt))
    (hfresh : ∀ c ∈ root.children, c.name ≠ node.name) :
    registerUnregister root node = root := by
  have hfind : (root.children.find? (fun c => c.name == node.name)) = none :=
    List.find?_eq_none.mpr (fun x hx => by simpa using hfresh x hx)
  rw [registerUnregister, addChild.eq_def, hfind]
  simp only [Option.isSome_none, Bool.false_eq_true, if_false]
  rw [removeChild, TNode.children_withChildren, TNode.withChildren_withChildren,
    insertionSort_append_single _ _ hsorted hfresh,
    eraseP_orderedInsert _ _ hfresh, TNode.withChildren_children]

/-- A registered literal `a` with grandchild `x`. -/
def childA0 : TNode := .mk true "a".toList false [.mk true "x".toList true []]

/-- A dispatcher root whose only child is `childA0`. -/
def rootEx : TNode := .mk false [] false [childA0]

/-- A freshly built literal node, also named `a`, with grandchild `y`. -/
def regB : TNode := .mk true "a".toList false [.mk true "y".toList true []]

/-- C3 counterexample: registering `regB` merges it into the existing
child `a`; unregistering the returned node then deletes the whole merged
child by name, leaving the root childless — not structurally equal to its
state before `register`, which still had the child `a`. -/
theorem register_unregister_counterexample :
    (registerUnregister rootEx regB).children = []
    ∧ registerUnregister rootEx regB ≠ rootEx := by
  have hmap : [childA0].map (fun c => if c.name == regB.name then mergeInto c regB else c)
      = [mergeInto childA0 regB] := by
    rw [List.map_cons, List.map_nil, if_pos (by decide)]
  have h1 : addChild rootEx regB = rootEx.withChildren [mergeInto childA0 regB] := by
    rw [addChild.eq_def]
    rw [if_pos (by decide)]
    rw [show rootEx.children = [childA0] from rfl, hmap]
    rfl
  have hname : (mergeInto childA0 regB).name = childA0.name := mergeInto_name _ _
  have herase : [mergeInto childA0 regB].eraseP (fun c => c.name == regB.name) = [] := by
    rw [List.eraseP_cons_of_pos (by rw [hname]; decide)]
  have h2 : registerUnregister rootEx regB
      = (rootEx.withChildren [mergeInto childA0 regB]).withChildren [] := by
    rw [registerUnregister, h1, removeChild, TNode.children_withChildren, herase]
  constructor
  · rw [h2, TNode.children_withChildren]
  · rw [h2]
    intro hcontra
    have hch := congrArg TNode.children hcontra
    rw [TNode.children_withChildren] at hch
    exact List.noConfusion (hch.trans (show rootEx.children = [childA0] from rfl))

/-- C3 amended, witness: a root with one sorted child `b`; registering and
unregistering a fresh literal `c` restores the root exactly. -/
theorem register_unregister_restores_witness :
    registerUnregister (.mk false [] false [.mk true "b".toList true []])
        (.mk true "c".toList true [])
      = .mk false [] false [.mk true "b".toList true []] :=
  register_unregister_restores _ _ (by simp [TNode.children])
    (by
      intro c hc
      simp only [TNode.children] at hc
      rw [List.mem_singleton] at hc
      subst hc
      decide)
